import Mathlib

/-!
Shallow embedding of `src/entry/tree.rs` from the divan repository: the
`EntryTree` forest type and its operations (`from_entries`, `max_name_span`,
`insert_group`, `retain`, `sort_by_attr`), together with theorems settling
the specification claims.

Modelling conventions:
* Rust `&'a Entry` / `&'a EntryGroup` references are modelled by values of
  the corresponding Lean structures (reference identity is value identity).
* `EntryLocation` is a comparable position; it is modelled as `Nat`.
* `PathComponents` is modelled as a `List String` stored on the entry/group.
* Rust's in-place mutation is modelled by functional rebuilding.
* `sort_unstable_by` is modelled by `List.mergeSort` (a sort satisfying the
  same contract: output ordered by the comparator, a permutation of input).
-/

/-- An entry: display name, module path components, and location.
Mirrors the fields of `Entry` that `tree.rs` reads. -/
structure Entry where
  display_name : String
  module_path : List String
  location : Nat
deriving DecidableEq, Repr

/-- Grouping metadata: raw name, display name, module path, location.
Mirrors the fields of `EntryGroup` that `tree.rs` reads. -/
structure EntryGroup where
  raw_name : String
  display_name : String
  module_path : List String
  location : Nat
deriving DecidableEq, Repr

/-- The sorting attribute enum from `config::SortingAttr`. -/
inductive SortingAttr where
  | Kind
  | Name
  | Location
deriving DecidableEq, Repr

/-- Modelled from the spec: `SortingAttr::with_tie_breakers` lives in
`config.rs`, which is not part of the extracted source. The spec says the
sort key is "the full ordered chain starting at the requested primary
attribute, followed by the remaining two attributes in a fixed fallback
order as tie-breakers". -/
def SortingAttr.with_tie_breakers : SortingAttr → List SortingAttr
  | .Kind => [.Kind, .Name, .Location]
  | .Name => [.Name, .Kind, .Location]
  | .Location => [.Location, .Kind, .Name]

/-- Tree of entries organized by path components (the Rust enum EntryTree). -/
inductive EntryTree where
  | Leaf (entry : Entry)
  | Parent (raw_name : String) (group : Option EntryGroup) (children : List EntryTree)

/-- Rust's `Iterator::min` on a finite sequence of locations: `none` on an
empty sequence, else the minimum value. -/
def min_opt : List Nat → Option Nat
  | [] => none
  | x :: xs =>
    match min_opt xs with
    | none => some x
    | some y => some (min x y)

/-- Combining the minima of two runs: the minimum of a concatenation. -/
def omin : Option Nat → Option Nat → Option Nat
  | none, b => b
  | some a, none => some a
  | some a, some b => some (min a b)

namespace EntryTree

/-- Rust's `str::strip_prefix("r#").unwrap_or(raw_name)`: remove a leading
raw-identifier escape `r#` when present, written on the character list so
that it evaluates by kernel reduction. -/
def stripRaw (s : String) : String :=
  match s.data with
  | 'r' :: '#' :: rest => String.mk rest
  | _ => s

/-- Mirror of `EntryTree::display_name`. -/
def display_name : EntryTree → String
  | .Leaf entry => entry.display_name
  | .Parent _ (some group) _ => group.display_name
  | .Parent raw_name none _ => stripRaw raw_name

/-- Mirror of `EntryTree::kind`: an integer denoting the enum variant
(leaves appear before parents). -/
def kind : EntryTree → Int
  | .Leaf _ => 0
  | .Parent _ _ _ => 1

/-- Mirror of `EntryTree::children`. -/
def children : EntryTree → List EntryTree
  | .Leaf _ => []
  | .Parent _ _ cs => cs

mutual
/-- Mirror of `EntryTree::location`: the location of this entry, group, or the
children's earliest location (`children.iter().flat_map(Self::location).min()`). -/
def location : EntryTree → Option Nat
  | .Leaf entry => some entry.location
  | .Parent _ (some group) _ => some group.location
  | .Parent _ none cs => min_opt (locations cs)

/-- The list that `children.iter().flat_map(Self::location)` yields:
the `some` results of `location` over a list of subtrees, in order. -/
def locations : List EntryTree → List Nat
  | [] => []
  | t :: ts =>
    match location t with
    | some l => l :: locations ts
    | none => locations ts
end

mutual
/-- Mirror of `EntryTree::max_name_span` on a forest: maximum over nodes of
display-name length plus `depth * 4`, max'd with the children's span at
`depth + 1`; `0` for an empty forest (`max().unwrap_or_default()`). -/
def max_name_span : List EntryTree → Nat → Nat
  | [], _ => 0
  | node :: rest, depth => max (node_span node depth) (max_name_span rest depth)

/-- The value `tree.iter().map(|node| ...)` computes for one node in
`max_name_span`: `node_name_span.max(children_max)`. -/
def node_span : EntryTree → Nat → Nat
  | .Leaf entry, depth =>
    max ((display_name (.Leaf entry)).length + depth * 4) 0
  | .Parent raw_name group cs, depth =>
    max ((display_name (.Parent raw_name group cs)).length + depth * 4)
      (max_name_span cs (depth + 1))
end

/-- Functional counterpart of `EntryTree::get_children` followed by an
in-place update: rewrite the children of the first `Parent` whose
`raw_name` equals `m` using `f`; `none` when no sibling matches. -/
def updateFirstParent (m : String) (f : List EntryTree → List EntryTree) :
    List EntryTree → Option (List EntryTree)
  | [] => none
  | .Parent raw_name group cs :: ts =>
    if raw_name = m then
      some (.Parent raw_name group (f cs) :: ts)
    else
      (updateFirstParent m f ts).map (.Parent raw_name group cs :: ·)
  | t :: ts => (updateFirstParent m f ts).map (t :: ·)

/-- Mirror of `EntryTree::from_path`: a chain of `Parent` nodes, one per remaining
component, terminating in a `Leaf`. -/
def from_path (entry : Entry) (current_module : String) :
    List String → EntryTree
  | [] => .Parent current_module none [.Leaf entry]
  | next_module :: rem_modules =>
    .Parent current_module none [from_path entry next_module rem_modules]

/-- Mirror of `EntryTree::insert_entry`: descend into the first matching `Parent`
per path component; append a `from_path` chain when no sibling matches;
append a `Leaf` when the components are exhausted. -/
def insert_entry (entry : Entry) (tree : List EntryTree) :
    List String → List EntryTree
  | [] => tree ++ [.Leaf entry]
  | current_module :: rem_modules =>
    match updateFirstParent current_module
        (fun cs => insert_entry entry cs rem_modules) tree with
    | some tree' => tree'
    | none => tree ++ [from_path entry current_module rem_modules]

/-- Mirror of `EntryTree::from_entries`: fold `insert_entry` over the entries in order. -/
def from_entries (entries : List Entry) : List EntryTree :=
  entries.foldl (fun tree entry => insert_entry entry tree entry.module_path) []

/-- The terminal step of `EntryTree::insert_group`: set the group slot of
the first `Parent` whose `raw_name` equals `group.raw_name`; leave the
list unchanged when none matches. -/
def set_group_here (group : EntryGroup) : List EntryTree → List EntryTree
  | [] => []
  | .Parent raw_name slot cs :: ts =>
    if group.raw_name = raw_name then
      .Parent raw_name (some group) cs :: ts
    else
      .Parent raw_name slot cs :: set_group_here group ts
  | t :: ts => t :: set_group_here group ts

/-- The descent loop of `EntryTree::insert_group`: follow the first
`Parent` matching each path component; abandon (returning the input
unchanged) when a component has no matching sibling. -/
def insert_group_go (group : EntryGroup) (tree : List EntryTree) :
    List String → List EntryTree
  | [] => set_group_here group tree
  | component :: rest =>
    match updateFirstParent component
        (fun cs => insert_group_go group cs rest) tree with
    | some tree' => tree'
    | none => tree

/-- Mirror of `EntryTree::insert_group`. -/
def insert_group (tree : List EntryTree) (group : EntryGroup) : List EntryTree :=
  insert_group_go group tree group.module_path

/-- The inner `retain` worker of `EntryTree::retain`: keep a `Leaf` iff the
filter accepts its full display path; recurse into a `Parent`'s children
under the extended path and keep the `Parent` iff children remain. -/
def retain_go (filter : String → Bool) : String → List EntryTree → List EntryTree
  | _, [] => []
  | parent_path, t :: ts =>
    let full_path : String :=
      if parent_path = "" then display_name t
      else parent_path ++ "::" ++ display_name t
    match t with
    | .Leaf entry =>
      if filter full_path then .Leaf entry :: retain_go filter parent_path ts
      else retain_go filter parent_path ts
    | .Parent raw_name group cs =>
      let cs' := retain_go filter full_path cs
      if cs'.isEmpty then retain_go filter parent_path ts
      else .Parent raw_name group cs' :: retain_go filter parent_path ts
termination_by _ l => sizeOf l
decreasing_by all_goals (simp_wf <;> omega)

/-- Mirror of `EntryTree::retain`. -/
def retain (tree : List EntryTree) (filter : String → Bool) : List EntryTree :=
  retain_go filter "" tree

/-- Three-way comparison induced by a linear order, mirroring Rust's
`Ord::cmp` on the same total order. -/
def cmpLin {α : Type} [LinearOrder α] (a b : α) : Ordering :=
  if a < b then .lt else if a = b then .eq else .gt

/-- Rust's derived `Ord` on `Option<EntryLocation>`: `None` is less than
`Some`, and two `Some`s compare by content. -/
def cmpOpt (a b : Option Nat) : Ordering :=
  match a, b with
  | none, none => .eq
  | none, some _ => .lt
  | some _, none => .gt
  | some x, some y => cmpLin x y

/-- One attribute comparison from the `match` in `EntryTree::cmp_by_attr`. -/
def cmp_one_attr (a b : EntryTree) : SortingAttr → Ordering
  | .Kind => cmpLin a.kind b.kind
  | .Name => cmpLin a.display_name b.display_name
  | .Location => cmpOpt a.location b.location

/-- The loop of `EntryTree::cmp_by_attr` over a list of attributes: return
the first non-equal comparison, else `Equal`. -/
def cmp_chain (a b : EntryTree) : List SortingAttr → Ordering
  | [] => .eq
  | attr :: rest =>
    let ordering := cmp_one_attr a b attr
    if ordering ≠ .eq then ordering else cmp_chain a b rest

/-- Mirror of `EntryTree::cmp_by_attr`. -/
def cmp_by_attr (a b : EntryTree) (attr : SortingAttr) : Ordering :=
  cmp_chain a b attr.with_tie_breakers

/-- The comparator closure passed to `sort_unstable_by` in
`EntryTree::sort_by_attr`: `cmp_by_attr`, reversed when `reverse` is set. -/
def sort_cmp (attr : SortingAttr) (reverse : Bool) (a b : EntryTree) : Ordering :=
  let ordering := cmp_by_attr a b attr
  if reverse then ordering.swap else ordering

/-- The boolean "less-or-equal" view of `sort_cmp` used by the model sort. -/
def sort_le (attr : SortingAttr) (reverse : Bool) (a b : EntryTree) : Bool :=
  sort_cmp attr reverse a b ≠ .gt

mutual
/-- Mirror of `EntryTree::sort_by_attr`: sort the level with the comparator, then
recursively sort every node's children. -/
def sort_by_attr (tree : List EntryTree) (attr : SortingAttr) (reverse : Bool) :
    List EntryTree :=
  sort_children_each (tree.mergeSort (sort_le attr reverse)) attr reverse
termination_by (sizeOf tree, 1)
decreasing_by
  have key : ∀ (l l' : List EntryTree), l.Perm l' → sizeOf l = sizeOf l' := by
    intro l l' h
    induction h with
    | nil => rfl
    | cons x _ ih => simp only [List.cons.sizeOf_spec]; omega
    | swap x y l => simp only [List.cons.sizeOf_spec]; omega
    | trans _ _ ih1 ih2 => omega
  rw [key _ _ (List.mergeSort_perm tree (sort_le attr reverse))]
  exact Prod.Lex.right _ (by omega)

/-- The recursive `tree.iter_mut().for_each(...)` pass of `sort_by_attr`:
sort each node's children in place. -/
def sort_children_each (tree : List EntryTree) (attr : SortingAttr)
    (reverse : Bool) : List EntryTree :=
  match tree with
  | [] => []
  | .Leaf entry :: ts => .Leaf entry :: sort_children_each ts attr reverse
  | .Parent raw_name group cs :: ts =>
    .Parent raw_name group (sort_by_attr cs attr reverse)
      :: sort_children_each ts attr reverse
termination_by (sizeOf tree, 0)
decreasing_by
  all_goals simp_wf
  all_goals apply Prod.Lex.left
  all_goals omega
end

mutual
/-- Number of `Leaf` nodes wrapping `entry` in a forest that are reachable
from the root level by descending through `Parent` nodes whose raw names
equal `path`'s components in order. -/
def count_in (entry : Entry) (path : List String) : List EntryTree → Nat
  | [] => 0
  | t :: ts => count_node entry path t + count_in entry path ts

/-- The value of `count_in` restricted to a single node. -/
def count_node (entry : Entry) (path : List String) : EntryTree → Nat
  | .Leaf e =>
    match path with
    | [] => if e = entry then 1 else 0
    | _ :: _ => 0
  | .Parent raw_name _ cs =>
    match path with
    | [] => 0
    | c :: rest => if raw_name = c then count_in entry rest cs else 0
end

mutual
/-- Number of `Leaf` nodes wrapping `entry` anywhere in a forest. -/
def total_in (entry : Entry) : List EntryTree → Nat
  | [] => 0
  | t :: ts => total_node entry t + total_in entry ts

/-- The value of `total_in` restricted to a single node. -/
def total_node (entry : Entry) : EntryTree → Nat
  | .Leaf e => if e = entry then 1 else 0
  | .Parent _ _ cs => total_in entry cs
end

mutual
/-- The no-empty-`Parent` invariant on a single node: every `Parent` it
contains (itself included) has a nonempty children list. -/
def no_empty : EntryTree → Bool
  | .Leaf _ => true
  | .Parent _ _ cs => !cs.isEmpty && no_empty_all cs

/-- The no-empty-`Parent` invariant on a forest. -/
def no_empty_all : List EntryTree → Bool
  | [] => true
  | t :: ts => no_empty t && no_empty_all ts
end

/-- The children of the first `Parent` in a sibling list whose raw name
equals `m` (the lookup that both `get_children` and the `insert_group`
descent loop perform). -/
def first_parent_children (m : String) : List EntryTree → Option (List EntryTree)
  | [] => none
  | .Parent raw_name _ cs :: ts =>
    if raw_name = m then some cs else first_parent_children m ts
  | _ :: ts => first_parent_children m ts

/-- Descend from a forest through the first `Parent` matching each
component in turn, yielding the innermost sibling list. -/
def descend (tree : List EntryTree) : List String → Option (List EntryTree)
  | [] => some tree
  | c :: rest =>
    match first_parent_children c tree with
    | some cs => descend cs rest
    | none => none

/-- The first `Parent` in a sibling list whose raw name equals `raw`. -/
def find_group_parent (raw : String) : List EntryTree → Option EntryTree
  | [] => none
  | .Parent raw_name slot cs :: ts =>
    if raw_name = raw then some (.Parent raw_name slot cs)
    else find_group_parent raw ts
  | _ :: ts => find_group_parent raw ts

/-- The `Parent` node that `insert_group` would bind a group with path
`path` and raw name `raw` to: descend along `path`, then take the first
`Parent` named `raw` among the resulting siblings. -/
def findNode (tree : List EntryTree) (path : List String) (raw : String) :
    Option EntryTree :=
  (descend tree path).bind (find_group_parent raw)

mutual
/-- All name spans in a forest, spec-style: for every node, its
display-name character length plus `depth * 4`, children taken at
`depth + 1`. -/
def spans_in (depth : Nat) : List EntryTree → List Nat
  | [] => []
  | t :: ts => spans_node depth t ++ spans_in depth ts

/-- The value of `spans_in` restricted to a single node. -/
def spans_node (depth : Nat) : EntryTree → List Nat
  | .Leaf entry => [(display_name (.Leaf entry)).length + depth * 4]
  | .Parent raw_name group cs =>
    ((display_name (.Parent raw_name group cs)).length + depth * 4)
      :: spans_in (depth + 1) cs
end

mutual
/-- The locations of a node's locatable descendants, spec-style: a `Leaf`
contributes its entry's location, a group-bound `Parent` contributes its
group's location, and an ungrouped `Parent` contributes whatever its
children contribute. -/
def descLocs : EntryTree → List Nat
  | .Leaf entry => [entry.location]
  | .Parent _ (some group) _ => [group.location]
  | .Parent _ none cs => descLocs_in cs

/-- The spec-style descendant locations over a sibling list. -/
def descLocs_in : List EntryTree → List Nat
  | [] => []
  | t :: ts => descLocs t ++ descLocs_in ts
end

/-- The observables of a node that the sort comparator reads: variant
ordinal, display name, and location. -/
def obs_eq (a b : EntryTree) : Prop :=
  kind a = kind b ∧ display_name a = display_name b ∧ location a = location b

theorem foldr_max_shift (l : List Nat) (i : Nat) :
    l.foldr max i = max (l.foldr max 0) i := by
  induction l with
  | nil => simp
  | cons a l ih => simp [ih, Nat.max_assoc]

theorem foldr_max_append (l1 l2 : List Nat) :
    (l1 ++ l2).foldr max 0 = max (l1.foldr max 0) (l2.foldr max 0) := by
  induction l1 with
  | nil => simp
  | cons a l ih => simp [ih, Nat.max_assoc]

mutual
theorem max_name_span_eq_spans : ∀ (tree : List EntryTree) (depth : Nat),
    max_name_span tree depth = (spans_in depth tree).foldr max 0
  | [], depth => by simp [max_name_span, spans_in]
  | t :: ts, depth => by
    rw [show max_name_span (t :: ts) depth
        = max (node_span t depth) (max_name_span ts depth) from rfl]
    rw [show spans_in depth (t :: ts) = spans_node depth t ++ spans_in depth ts from rfl]
    rw [foldr_max_append, node_span_eq_spans t depth, max_name_span_eq_spans ts depth]

theorem node_span_eq_spans : ∀ (t : EntryTree) (depth : Nat),
    node_span t depth = (spans_node depth t).foldr max 0
  | .Leaf e, depth => by simp [node_span, spans_node]
  | .Parent rn g cs, depth => by
    rw [show node_span (.Parent rn g cs) depth
        = max ((display_name (.Parent rn g cs)).length + depth * 4)
          (max_name_span cs (depth + 1)) from rfl]
    rw [show spans_node depth (.Parent rn g cs)
        = ((display_name (.Parent rn g cs)).length + depth * 4)
          :: spans_in (depth + 1) cs from rfl]
    rw [List.foldr_cons, max_name_span_eq_spans cs (depth + 1)]
end

theorem min_opt_append (l1 l2 : List Nat) :
    min_opt (l1 ++ l2) = omin (min_opt l1) (min_opt l2) := by
  induction l1 with
  | nil => rfl
  | cons a l ih =>
    simp only [List.cons_append, min_opt, List.append_eq]
    rw [ih]
    cases h1 : min_opt l <;> cases h2 : min_opt l2 <;>
      simp [omin, Nat.min_assoc]

mutual
theorem location_eq_descLocs : ∀ (t : EntryTree),
    location t = min_opt (descLocs t)
  | .Leaf e => by simp [location, descLocs, min_opt]
  | .Parent rn (some g) cs => by simp [location, descLocs, min_opt]
  | .Parent rn none cs => by
    rw [show location (.Parent rn none cs) = min_opt (locations cs) from rfl]
    rw [show descLocs (.Parent rn none cs) = descLocs_in cs from rfl]
    exact locations_min_eq_descLocs cs

theorem locations_min_eq_descLocs : ∀ (ts : List EntryTree),
    min_opt (locations ts) = min_opt (descLocs_in ts)
  | [] => rfl
  | t :: ts => by
    rw [show descLocs_in (t :: ts) = descLocs t ++ descLocs_in ts from rfl]
    rw [min_opt_append, ← location_eq_descLocs t, ← locations_min_eq_descLocs ts]
    rw [show locations (t :: ts)
        = (match location t with
           | some l => l :: locations ts
           | none => locations ts) from rfl]
    cases h : location t with
    | none => simp [omin]
    | some l =>
      simp only [min_opt, omin]
      cases min_opt (locations ts) <;> simp
end

/-- Claim C9: `max_name_span` equals the maximum, over all nodes, of the
display-name character length plus the node's depth times the fixed
indent width 4 (a node's children evaluated at `depth + 1`); it returns
`0` for an empty forest; and on a forest with a root `Leaf` named "bench"
and a `Parent` "mod" containing a `Leaf` "x" it returns `5` at depth `0`. -/
theorem C9_max_name_span :
    (∀ (tree : List EntryTree) (depth : Nat),
      max_name_span tree depth = (spans_in depth tree).foldr max 0)
    ∧ (∀ depth, max_name_span [] depth = 0)
    ∧ max_name_span
        [.Leaf ⟨"bench", [], 0⟩,
         .Parent "mod" none [.Leaf ⟨"x", ["mod"], 1⟩]] 0 = 5 :=
  ⟨max_name_span_eq_spans, fun _ => rfl, rfl⟩

/-- Claim C3 counterexample: at these concrete nodes, a `Parent` with no
locatable descendant orders before a node that has a location (the
`Location` comparison yields `lt`), not after it as the claim states. -/
theorem C3_counterexample :
    location (EntryTree.Parent "p" none []) = none
    ∧ location (EntryTree.Leaf ⟨"l", [], 3⟩) = some 3
    ∧ cmp_by_attr (EntryTree.Parent "p" none []) (EntryTree.Leaf ⟨"l", [], 3⟩)
        SortingAttr.Location = .lt
    ∧ ¬ cmp_by_attr (EntryTree.Parent "p" none []) (EntryTree.Leaf ⟨"l", [], 3⟩)
        SortingAttr.Location = .gt :=
  ⟨rfl, rfl, rfl, fun h => Ordering.noConfusion h⟩

/-- Claim C3 (amended): a `Leaf` compares by its entry's location and a
group-bound `Parent` by its group's location; an ungrouped `Parent`
compares by the minimum (earliest) location among its locatable
descendants, computed recursively; and a `Parent` with no locatable
descendant compares as absent/least, i.e. orders before every node that
has a location. -/
theorem C3_location_attr :
    (∀ e, location (.Leaf e) = some e.location)
    ∧ (∀ rn g cs, location (.Parent rn (some g) cs) = some g.location)
    ∧ (∀ t, location t = min_opt (descLocs t))
    ∧ (∀ a b, location a = none → location b ≠ none →
        cmp_by_attr a b .Location = .lt ∧ cmp_by_attr b a .Location = .gt) := by
  refine ⟨fun _ => rfl, fun _ _ _ => rfl, location_eq_descLocs, ?_⟩
  intro a b ha hb
  obtain ⟨l, hl⟩ := Option.ne_none_iff_exists'.mp hb
  constructor
  · show cmp_chain a b [.Location, .Kind, .Name] = .lt
    simp [cmp_chain, cmp_one_attr, ha, hl, cmpOpt]
  · show cmp_chain b a [.Location, .Kind, .Name] = .gt
    simp [cmp_chain, cmp_one_attr, ha, hl, cmpOpt]

/-- Witness for the amended C3 theorem at concrete nodes. -/
theorem C3_location_attr_witness :
    cmp_by_attr (EntryTree.Parent "p" none []) (EntryTree.Leaf ⟨"l", [], 3⟩)
        SortingAttr.Location = .lt
    ∧ cmp_by_attr (EntryTree.Leaf ⟨"l", [], 3⟩) (EntryTree.Parent "p" none [])
        SortingAttr.Location = .gt :=
  C3_location_attr.2.2.2 _ _ rfl (fun h => Option.noConfusion h)

theorem no_empty_all_nil : no_empty_all [] = true := rfl

theorem no_empty_all_cons (t : EntryTree) (ts : List EntryTree) :
    no_empty_all (t :: ts) = (no_empty t && no_empty_all ts) := rfl

theorem no_empty_leaf (e : Entry) : no_empty (.Leaf e) = true := rfl

theorem no_empty_parent (rn : String) (g : Option EntryGroup) (cs : List EntryTree) :
    no_empty (.Parent rn g cs) = (!cs.isEmpty && no_empty_all cs) := rfl

theorem no_empty_all_append (l1 l2 : List EntryTree) :
    no_empty_all (l1 ++ l2) = (no_empty_all l1 && no_empty_all l2) := by
  induction l1 with
  | nil => rfl
  | cons t ts ih =>
    rw [List.cons_append, no_empty_all_cons, no_empty_all_cons, ih, Bool.and_assoc]

theorem from_path_no_empty (e : Entry) :
    ∀ (rem : List String) (m : String), no_empty (from_path e m rem) = true
  | [], m => rfl
  | next :: rest, m => by
    have ih := from_path_no_empty e rest next
    rw [show from_path e m (next :: rest)
        = .Parent m none [from_path e next rest] from rfl]
    rw [no_empty_parent, no_empty_all_cons, no_empty_all_nil, ih]
    rfl

theorem updateFirstParent_ne_nil (m : String) (f : List EntryTree → List EntryTree) :
    ∀ (tree tree' : List EntryTree), updateFirstParent m f tree = some tree' → tree' ≠ []
  | [], _, h => by simp [updateFirstParent] at h
  | .Leaf e :: ts, tree', h => by
    simp only [updateFirstParent, Option.map_eq_some'] at h
    obtain ⟨a, _, rfl⟩ := h
    simp
  | .Parent rn g cs :: ts, tree', h => by
    simp only [updateFirstParent] at h
    by_cases hrn : rn = m
    · simp only [hrn, if_pos rfl] at h
      cases h
      simp
    · simp only [if_neg hrn, Option.map_eq_some'] at h
      obtain ⟨a, _, rfl⟩ := h
      simp

theorem updateFirstParent_no_empty (m : String) (f : List EntryTree → List EntryTree)
    (hf : ∀ cs, no_empty_all cs = true →
      no_empty_all (f cs) = true ∧ (f cs).isEmpty = false) :
    ∀ (tree tree' : List EntryTree), updateFirstParent m f tree = some tree' →
      no_empty_all tree = true → no_empty_all tree' = true
  | [], _, h, _ => by simp [updateFirstParent] at h
  | .Leaf e :: ts, tree', h, hinv => by
    simp only [updateFirstParent, Option.map_eq_some'] at h
    obtain ⟨a, ha, rfl⟩ := h
    rw [no_empty_all_cons] at hinv ⊢
    simp only [Bool.and_eq_true] at hinv ⊢
    exact ⟨hinv.1, updateFirstParent_no_empty m f hf ts a ha hinv.2⟩
  | .Parent rn g cs :: ts, tree', h, hinv => by
    rw [no_empty_all_cons, no_empty_parent] at hinv
    simp only [Bool.and_eq_true, Bool.not_eq_true'] at hinv
    simp only [updateFirstParent] at h
    by_cases hrn : rn = m
    · simp only [hrn, if_pos rfl] at h
      cases h
      rw [no_empty_all_cons, no_empty_parent]
      obtain ⟨hfc, hne⟩ := hf cs hinv.1.2
      simp [hfc, hne, hinv.2]
    · simp only [if_neg hrn, Option.map_eq_some'] at h
      obtain ⟨a, ha, rfl⟩ := h
      rw [no_empty_all_cons, no_empty_parent]
      simp only [Bool.and_eq_true, Bool.not_eq_true']
      exact ⟨⟨hinv.1.1, hinv.1.2⟩, updateFirstParent_no_empty m f hf ts a ha hinv.2⟩

theorem insert_entry_no_empty_and_ne_nil (e : Entry) :
    ∀ (rem : List String) (tree : List EntryTree), no_empty_all tree = true →
      no_empty_all (insert_entry e tree rem) = true
      ∧ (insert_entry e tree rem).isEmpty = false
  | [], tree, hinv => by
    rw [show insert_entry e tree [] = tree ++ [.Leaf e] from rfl]
    refine ⟨?_, ?_⟩
    · rw [no_empty_all_append, hinv]
      rfl
    · cases tree <;> rfl
  | m :: rest, tree, hinv => by
    rw [show insert_entry e tree (m :: rest)
        = (match updateFirstParent m (fun cs => insert_entry e cs rest) tree with
           | some tree' => tree'
           | none => tree ++ [from_path e m rest]) from rfl]
    cases h : updateFirstParent m (fun cs => insert_entry e cs rest) tree with
    | some tree' =>
      refine ⟨updateFirstParent_no_empty m _
        (fun cs hcs => insert_entry_no_empty_and_ne_nil e rest cs hcs) tree tree' h hinv, ?_⟩
      have hne := updateFirstParent_ne_nil m _ tree tree' h
      cases tree' with
      | nil => exact absurd rfl hne
      | cons a l => rfl
    | none =>
      refine ⟨?_, ?_⟩
      · rw [no_empty_all_append, hinv, no_empty_all_cons, no_empty_all_nil,
          from_path_no_empty e rest m]
        rfl
      · cases tree <;> rfl

theorem from_entries_no_empty_aux :
    ∀ (entries : List Entry) (tree : List EntryTree), no_empty_all tree = true →
      no_empty_all (entries.foldl
        (fun acc entry => insert_entry entry acc entry.module_path) tree) = true
  | [], tree, hinv => hinv
  | e :: es, tree, hinv => by
    rw [List.foldl_cons]
    exact from_entries_no_empty_aux es _
      (insert_entry_no_empty_and_ne_nil e e.module_path tree hinv).1

theorem retain_go_no_empty (filter : String → Bool) :
    ∀ (pp : String) (tree : List EntryTree),
      no_empty_all (retain_go filter pp tree) = true
  | _, [] => by simp only [retain_go]; rfl
  | pp, .Leaf e :: ts => by
    simp only [retain_go]
    split
    all_goals split
    all_goals exact retain_go_no_empty filter pp ts
  | pp, .Parent rn g cs :: ts => by
    simp only [retain_go]
    split
    all_goals split
    all_goals first
      | exact retain_go_no_empty filter pp ts
      | (rename_i hne;
         rw [no_empty_all_cons, no_empty_parent, retain_go_no_empty filter _ cs,
           retain_go_no_empty filter pp ts];
         simp only [Bool.not_eq_true] at hne;
         simp [hne])
termination_by _ tree => sizeOf tree
decreasing_by all_goals (simp_wf <;> omega)

/-- Claim C2: every `Parent` node in a forest produced by `from_entries`
has at least one child, and every `Parent` node in the output of `retain`
(on any forest) has at least one child: no empty `Parent` ever persists. -/
theorem C2_no_empty_parents :
    (∀ entries, no_empty_all (from_entries entries) = true)
    ∧ (∀ tree filter, no_empty_all (retain tree filter) = true) :=
  ⟨fun entries => from_entries_no_empty_aux entries [] rfl,
   fun tree filter => retain_go_no_empty filter "" tree⟩

theorem retain_go_true :
    ∀ (pp : String) (tree : List EntryTree), no_empty_all tree = true →
      retain_go (fun _ => true) pp tree = tree
  | _, [], _ => by simp only [retain_go]
  | pp, .Leaf e :: ts, hinv => by
    rw [no_empty_all_cons] at hinv
    simp only [Bool.and_eq_true] at hinv
    simp only [retain_go, if_pos]
    rw [retain_go_true pp ts hinv.2]
  | pp, .Parent rn g cs :: ts, hinv => by
    rw [no_empty_all_cons, no_empty_parent] at hinv
    simp only [Bool.and_eq_true, Bool.not_eq_true'] at hinv
    simp only [retain_go]
    rw [retain_go_true _ cs hinv.1.2, retain_go_true pp ts hinv.2]
    simp [hinv.1.1]
termination_by _ tree => sizeOf tree
decreasing_by all_goals (simp_wf <;> omega)

theorem retain_go_false :
    ∀ (pp : String) (tree : List EntryTree),
      retain_go (fun _ => false) pp tree = []
  | _, [] => by simp only [retain_go]
  | pp, .Leaf e :: ts => by
    simp only [retain_go, Bool.false_eq_true, if_false]
    exact retain_go_false pp ts
  | pp, .Parent rn g cs :: ts => by
    simp only [retain_go]
    rw [retain_go_false _ cs]
    simp only [List.isEmpty_nil, if_true]
    exact retain_go_false pp ts
termination_by _ tree => sizeOf tree
decreasing_by all_goals (simp_wf <;> omega)

/-- Claim C6: on a forest satisfying the no-empty-`Parent` invariant,
`retain` with an always-true predicate is the identity, and `retain` with
an always-false predicate yields the empty forest. -/
theorem C6_retain_const :
    (∀ tree, no_empty_all tree = true → retain tree (fun _ => true) = tree)
    ∧ (∀ tree, retain tree (fun _ => false) = []) :=
  ⟨fun tree h => retain_go_true "" tree h, fun tree => retain_go_false "" tree⟩

/-- Witness for C6 at a concrete forest satisfying the invariant. -/
theorem C6_retain_const_witness :
    retain [EntryTree.Parent "a" none [.Leaf ⟨"x", ["a"], 0⟩]] (fun _ => true)
      = [EntryTree.Parent "a" none [.Leaf ⟨"x", ["a"], 0⟩]] :=
  C6_retain_const.1 _ rfl

theorem updateFirstParent_some_decomp (m : String) (f : List EntryTree → List EntryTree) :
    ∀ (tree tree' : List EntryTree), updateFirstParent m f tree = some tree' →
      ∃ pre g cs post,
        tree = pre ++ .Parent m g cs :: post
        ∧ (∀ u ∈ pre, ∀ g1 cs1, u ≠ .Parent m g1 cs1)
        ∧ tree' = pre ++ .Parent m g (f cs) :: post
  | [], _, h => by simp [updateFirstParent] at h
  | .Leaf e :: ts, tree', h => by
    simp only [updateFirstParent, Option.map_eq_some'] at h
    obtain ⟨a, ha, rfl⟩ := h
    obtain ⟨pre, g, cs, post, h1, h2, h3⟩ := updateFirstParent_some_decomp m f ts a ha
    refine ⟨.Leaf e :: pre, g, cs, post, by rw [h1, List.cons_append], ?_, by rw [h3, List.cons_append]⟩
    intro u hu g1 cs1
    rcases List.mem_cons.mp hu with h | h
    · subst h; intro hc; exact EntryTree.noConfusion hc
    · exact h2 u h g1 cs1
  | .Parent rn g0 cs0 :: ts, tree', h => by
    simp only [updateFirstParent] at h
    by_cases hrn : rn = m
    · subst hrn
      simp only [if_pos rfl] at h
      cases h
      exact ⟨[], g0, cs0, ts, rfl, by simp, rfl⟩
    · simp only [if_neg hrn, Option.map_eq_some'] at h
      obtain ⟨a, ha, rfl⟩ := h
      obtain ⟨pre, g, cs, post, h1, h2, h3⟩ := updateFirstParent_some_decomp m f ts a ha
      refine ⟨.Parent rn g0 cs0 :: pre, g, cs, post,
        by rw [h1, List.cons_append], ?_, by rw [h3, List.cons_append]⟩
      intro u hu g1 cs1
      rcases List.mem_cons.mp hu with h | h
      · subst h; intro hc; injection hc with h' _ _; exact hrn h'
      · exact h2 u h g1 cs1

theorem updateFirstParent_none_iff (m : String) (f : List EntryTree → List EntryTree) :
    ∀ (tree : List EntryTree),
      updateFirstParent m f tree = none ↔ first_parent_children m tree = none
  | [] => by simp [updateFirstParent, first_parent_children]
  | .Leaf e :: ts => by
    simp only [updateFirstParent, first_parent_children, Option.map_eq_none']
    exact updateFirstParent_none_iff m f ts
  | .Parent rn g0 cs0 :: ts => by
    simp only [updateFirstParent, first_parent_children]
    by_cases hrn : rn = m
    · simp [if_pos hrn]
    · simp only [if_neg hrn, Option.map_eq_none']
      exact updateFirstParent_none_iff m f ts

theorem first_parent_children_pre (m : String) (g : Option EntryGroup)
    (cs post : List EntryTree) :
    ∀ (pre : List EntryTree), (∀ u ∈ pre, ∀ g1 cs1, u ≠ .Parent m g1 cs1) →
      first_parent_children m (pre ++ .Parent m g cs :: post) = some cs
  | [], _ => by simp [first_parent_children]
  | .Leaf e :: pre, hpre => by
    rw [List.cons_append]
    rw [show first_parent_children m (.Leaf e :: (pre ++ .Parent m g cs :: post))
        = first_parent_children m (pre ++ .Parent m g cs :: post) from rfl]
    exact first_parent_children_pre m g cs post pre
      (fun u hu => hpre u (List.mem_cons_of_mem _ hu))
  | .Parent rn g1 cs1 :: pre, hpre => by
    have hrn : rn ≠ m := by
      intro h
      subst h
      exact hpre (.Parent rn g1 cs1) (List.mem_cons_self _ _) g1 cs1 rfl
    rw [List.cons_append]
    rw [show first_parent_children m (.Parent rn g1 cs1 :: (pre ++ .Parent m g cs :: post))
        = if rn = m then some cs1
          else first_parent_children m (pre ++ .Parent m g cs :: post) from rfl]
    rw [if_neg hrn]
    exact first_parent_children_pre m g cs post pre
      (fun u hu => hpre u (List.mem_cons_of_mem _ hu))

theorem set_group_here_id (g : EntryGroup) :
    ∀ (tree : List EntryTree), find_group_parent g.raw_name tree = none →
      set_group_here g tree = tree
  | [], _ => rfl
  | .Leaf e :: ts, h => by
    rw [show find_group_parent g.raw_name (.Leaf e :: ts)
        = find_group_parent g.raw_name ts from rfl] at h
    rw [show set_group_here g (.Leaf e :: ts) = .Leaf e :: set_group_here g ts from rfl]
    rw [set_group_here_id g ts h]
  | .Parent rn slot cs :: ts, h => by
    rw [show find_group_parent g.raw_name (.Parent rn slot cs :: ts)
        = (if rn = g.raw_name then some (.Parent rn slot cs)
           else find_group_parent g.raw_name ts) from rfl] at h
    by_cases hrn : rn = g.raw_name
    · rw [if_pos hrn] at h
      exact absurd h (by simp)
    · rw [if_neg hrn] at h
      rw [show set_group_here g (.Parent rn slot cs :: ts)
          = if g.raw_name = rn then .Parent rn (some g) cs :: ts
            else .Parent rn slot cs :: set_group_here g ts from rfl]
      rw [if_neg (fun hc => hrn hc.symm), set_group_here_id g ts h]

theorem set_group_here_binds (g : EntryGroup) :
    ∀ (tree : List EntryTree) (g0 : Option EntryGroup) (cs0 : List EntryTree),
      find_group_parent g.raw_name tree = some (.Parent g.raw_name g0 cs0) →
      find_group_parent g.raw_name (set_group_here g tree)
        = some (.Parent g.raw_name (some g) cs0)
  | [], _, _, h => by simp [find_group_parent] at h
  | .Leaf e :: ts, g0, cs0, h => by
    rw [show find_group_parent g.raw_name (.Leaf e :: ts)
        = find_group_parent g.raw_name ts from rfl] at h
    rw [show set_group_here g (.Leaf e :: ts) = .Leaf e :: set_group_here g ts from rfl]
    rw [show find_group_parent g.raw_name (.Leaf e :: set_group_here g ts)
        = find_group_parent g.raw_name (set_group_here g ts) from rfl]
    exact set_group_here_binds g ts g0 cs0 h
  | .Parent rn slot cs :: ts, g0, cs0, h => by
    rw [show find_group_parent g.raw_name (.Parent rn slot cs :: ts)
        = (if rn = g.raw_name then some (.Parent rn slot cs)
           else find_group_parent g.raw_name ts) from rfl] at h
    by_cases hrn : rn = g.raw_name
    · rw [if_pos hrn] at h
      injection h with h'
      injection h' with h1 h2 h3
      rw [show set_group_here g (.Parent rn slot cs :: ts)
          = if g.raw_name = rn then .Parent rn (some g) cs :: ts
            else .Parent rn slot cs :: set_group_here g ts from rfl]
      rw [if_pos hrn.symm]
      rw [show find_group_parent g.raw_name (.Parent rn (some g) cs :: ts)
          = (if rn = g.raw_name then some (.Parent rn (some g) cs)
             else find_group_parent g.raw_name ts) from rfl]
      rw [if_pos hrn, hrn, h3]
    · rw [if_neg hrn] at h
      rw [show set_group_here g (.Parent rn slot cs :: ts)
          = if g.raw_name = rn then .Parent rn (some g) cs :: ts
            else .Parent rn slot cs :: set_group_here g ts from rfl]
      rw [if_neg (fun hc => hrn hc.symm)]
      rw [show find_group_parent g.raw_name (.Parent rn slot cs :: set_group_here g ts)
          = (if rn = g.raw_name then some (.Parent rn slot cs)
             else find_group_parent g.raw_name (set_group_here g ts)) from rfl]
      rw [if_neg hrn]
      exact set_group_here_binds g ts g0 cs0 h

theorem insert_group_go_unmatched (g : EntryGroup) :
    ∀ (path : List String) (tree : List EntryTree),
      findNode tree path g.raw_name = none → insert_group_go g tree path = tree
  | [], tree, h => by
    rw [show findNode tree [] g.raw_name = find_group_parent g.raw_name tree from rfl] at h
    rw [show insert_group_go g tree [] = set_group_here g tree from rfl]
    exact set_group_here_id g tree h
  | c :: rest, tree, h => by
    rw [show insert_group_go g tree (c :: rest)
        = (match updateFirstParent c (fun cs => insert_group_go g cs rest) tree with
           | some tree' => tree'
           | none => tree) from rfl]
    cases hu : updateFirstParent c (fun cs => insert_group_go g cs rest) tree with
    | none => rfl
    | some tree' =>
      obtain ⟨pre, g0, cs, post, h1, h2, h3⟩ :=
        updateFirstParent_some_decomp c _ tree tree' hu
      have hfpc : first_parent_children c tree = some cs := by
        rw [h1]; exact first_parent_children_pre c g0 cs post pre h2
      rw [show findNode tree (c :: rest) g.raw_name
          = ((match first_parent_children c tree with
              | some cs => descend cs rest
              | none => none).bind (find_group_parent g.raw_name)) from rfl] at h
      rw [hfpc] at h
      have hrec : insert_group_go g cs rest = cs :=
        insert_group_go_unmatched g rest cs h
      rw [h3, hrec, ← h1]

theorem insert_group_go_matched (g : EntryGroup) :
    ∀ (path : List String) (tree : List EntryTree) (g0 : Option EntryGroup)
      (cs0 : List EntryTree),
      findNode tree path g.raw_name = some (.Parent g.raw_name g0 cs0) →
      findNode (insert_group_go g tree path) path g.raw_name
        = some (.Parent g.raw_name (some g) cs0)
  | [], tree, g0, cs0, h => by
    rw [show findNode tree [] g.raw_name = find_group_parent g.raw_name tree from rfl] at h
    rw [show insert_group_go g tree [] = set_group_here g tree from rfl]
    rw [show findNode (set_group_here g tree) [] g.raw_name
        = find_group_parent g.raw_name (set_group_here g tree) from rfl]
    exact set_group_here_binds g tree g0 cs0 h
  | c :: rest, tree, g0, cs0, h => by
    rw [show findNode tree (c :: rest) g.raw_name
        = ((match first_parent_children c tree with
            | some cs => descend cs rest
            | none => none).bind (find_group_parent g.raw_name)) from rfl] at h
    rw [show insert_group_go g tree (c :: rest)
        = (match updateFirstParent c (fun cs => insert_group_go g cs rest) tree with
           | some tree' => tree'
           | none => tree) from rfl]
    cases hfpc : first_parent_children c tree with
    | none =>
      rw [hfpc] at h
      simp at h
    | some cs =>
      rw [hfpc] at h
      cases hu : updateFirstParent c (fun cs => insert_group_go g cs rest) tree with
      | none =>
        rw [(updateFirstParent_none_iff c _ tree).mp hu] at hfpc
        exact absurd hfpc (by simp)
      | some tree' =>
        obtain ⟨pre, g1, cs1, post, h1, h2, h3⟩ :=
          updateFirstParent_some_decomp c _ tree tree' hu
        have hfpc1 : first_parent_children c tree = some cs1 := by
          rw [h1]; exact first_parent_children_pre c g1 cs1 post pre h2
        have hcs : cs1 = cs := by
          rw [hfpc1] at hfpc; injection hfpc
        rw [hcs] at h3
        have hrec := insert_group_go_matched g rest cs g0 cs0 h
        rw [show findNode tree' (c :: rest) g.raw_name
            = ((match first_parent_children c tree' with
                | some cs => descend cs rest
                | none => none).bind (find_group_parent g.raw_name)) from rfl]
        have hfpc' : first_parent_children c tree' = some (insert_group_go g cs rest) := by
          rw [h3]; exact first_parent_children_pre c g1 _ post pre h2
        rw [hfpc']
        exact hrec

/-- Claim C5: binding a group whose path (or final raw name) matches no
existing `Parent` chain leaves the forest entirely unchanged, silently. -/
theorem C5_insert_group_unmatched :
    ∀ (tree : List EntryTree) (g : EntryGroup),
      findNode tree g.module_path g.raw_name = none → insert_group tree g = tree :=
  fun tree g h => insert_group_go_unmatched g g.module_path tree h

/-- Witness for C5: a group whose final raw name matches no `Parent` leaves
a concrete forest unchanged. -/
theorem C5_insert_group_unmatched_witness :
    insert_group [EntryTree.Parent "a" none [.Leaf ⟨"x", ["a"], 0⟩]] ⟨"z", "Z", ["a"], 9⟩
      = [EntryTree.Parent "a" none [.Leaf ⟨"x", ["a"], 0⟩]] :=
  C5_insert_group_unmatched _ _ rfl

/-- Claim C4: binding a group whose path components match a chain of
existing `Parent` nodes ending in a `Parent` whose raw name equals the
group's raw name sets that `Parent`'s group slot (keeping its children),
after which its display name is the group's display name and its location
is the group's location; a previously bound group is overwritten (last
write wins). -/
theorem C4_insert_group_binds :
    (∀ (tree : List EntryTree) (g : EntryGroup) (g0 : Option EntryGroup)
        (cs0 : List EntryTree),
      findNode tree g.module_path g.raw_name = some (.Parent g.raw_name g0 cs0) →
      findNode (insert_group tree g) g.module_path g.raw_name
          = some (.Parent g.raw_name (some g) cs0)
        ∧ display_name (.Parent g.raw_name (some g) cs0) = g.display_name
        ∧ location (.Parent g.raw_name (some g) cs0) = some g.location)
    ∧ (∀ (tree : List EntryTree) (g g' : EntryGroup) (g0 : Option EntryGroup)
        (cs0 : List EntryTree),
      g'.raw_name = g.raw_name → g'.module_path = g.module_path →
      findNode tree g.module_path g.raw_name = some (.Parent g.raw_name g0 cs0) →
      findNode (insert_group (insert_group tree g') g) g.module_path g.raw_name
          = some (.Parent g.raw_name (some g) cs0)) := by
  constructor
  · intro tree g g0 cs0 h
    exact ⟨insert_group_go_matched g g.module_path tree g0 cs0 h, rfl, rfl⟩
  · intro tree g g' g0 cs0 hraw hpath h
    have h1 : findNode (insert_group tree g') g.module_path g.raw_name
        = some (.Parent g.raw_name (some g') cs0) := by
      rw [show insert_group tree g' = insert_group_go g' tree g'.module_path from rfl, hpath]
      have := insert_group_go_matched g' g.module_path tree g0 cs0 (by rw [hraw]; exact h)
      rw [hraw] at this
      exact this
    exact insert_group_go_matched g g.module_path (insert_group tree g') (some g') cs0 h1

/-- Witness for C4 at a concrete forest and group, including a rebinding. -/
theorem C4_insert_group_binds_witness :
    (findNode (insert_group [EntryTree.Parent "a" none
          [.Parent "b" none [.Leaf ⟨"x", ["a", "b"], 0⟩]]] ⟨"b", "B", ["a"], 9⟩)
        ["a"] "b" = some (.Parent "b" (some ⟨"b", "B", ["a"], 9⟩)
          [.Leaf ⟨"x", ["a", "b"], 0⟩]))
    ∧ findNode (insert_group (insert_group [EntryTree.Parent "a" none
          [.Parent "b" none [.Leaf ⟨"x", ["a", "b"], 0⟩]]] ⟨"b", "OLD", ["a"], 1⟩)
          ⟨"b", "B", ["a"], 9⟩)
        ["a"] "b" = some (.Parent "b" (some ⟨"b", "B", ["a"], 9⟩)
          [.Leaf ⟨"x", ["a", "b"], 0⟩]) :=
  ⟨(C4_insert_group_binds.1
      [EntryTree.Parent "a" none [.Parent "b" none [.Leaf ⟨"x", ["a", "b"], 0⟩]]]
      ⟨"b", "B", ["a"], 9⟩ none [.Leaf ⟨"x", ["a", "b"], 0⟩] rfl).1,
   C4_insert_group_binds.2
      [EntryTree.Parent "a" none [.Parent "b" none [.Leaf ⟨"x", ["a", "b"], 0⟩]]]
      ⟨"b", "B", ["a"], 9⟩ ⟨"b", "OLD", ["a"], 1⟩ none [.Leaf ⟨"x", ["a", "b"], 0⟩] rfl rfl rfl⟩

theorem set_group_here_pre (g : EntryGroup) (g0 : Option EntryGroup)
    (cs0 post : List EntryTree) :
    ∀ (pre : List EntryTree), (∀ u ∈ pre, ∀ g1 cs1, u ≠ .Parent g.raw_name g1 cs1) →
      set_group_here g (pre ++ .Parent g.raw_name g0 cs0 :: post)
        = pre ++ .Parent g.raw_name (some g) cs0 :: post
  | [], _ => by
    rw [List.nil_append, List.nil_append]
    rw [show set_group_here g (.Parent g.raw_name g0 cs0 :: post)
        = if g.raw_name = g.raw_name then .Parent g.raw_name (some g) cs0 :: post
          else .Parent g.raw_name g0 cs0 :: set_group_here g post from rfl]
    rw [if_pos rfl]
  | .Leaf e :: pre, hpre => by
    rw [List.cons_append, List.cons_append]
    rw [show set_group_here g (.Leaf e :: (pre ++ .Parent g.raw_name g0 cs0 :: post))
        = .Leaf e :: set_group_here g (pre ++ .Parent g.raw_name g0 cs0 :: post) from rfl]
    rw [set_group_here_pre g g0 cs0 post pre
      (fun u hu => hpre u (List.mem_cons_of_mem _ hu))]
  | .Parent rn g1 cs1 :: pre, hpre => by
    have hrn : ¬ g.raw_name = rn := by
      intro hc
      exact hpre (.Parent rn g1 cs1) (List.mem_cons_self _ _) g1 cs1 (by rw [hc])
    rw [List.cons_append, List.cons_append]
    rw [show set_group_here g (.Parent rn g1 cs1 :: (pre ++ .Parent g.raw_name g0 cs0 :: post))
        = if g.raw_name = rn then .Parent rn (some g) cs1
              :: (pre ++ .Parent g.raw_name g0 cs0 :: post)
          else .Parent rn g1 cs1
              :: set_group_here g (pre ++ .Parent g.raw_name g0 cs0 :: post) from rfl]
    rw [if_neg hrn]
    rw [set_group_here_pre g g0 cs0 post pre
      (fun u hu => hpre u (List.mem_cons_of_mem _ hu))]

/-- Claim C10: with a zero-component path the `insert_group` descent loop
runs zero times, so the group binds to the first root-level `Parent` whose
raw name equals the group's raw name, skipping every other node (in
particular every `Leaf`); when no root-level `Parent` matches, the forest
is unchanged. -/
theorem C10_insert_group_empty_path :
    (∀ (tree : List EntryTree) (g : EntryGroup), g.module_path = [] →
      insert_group tree g = set_group_here g tree)
    ∧ (∀ (g : EntryGroup) (pre : List EntryTree) (g0 : Option EntryGroup)
        (cs0 post : List EntryTree), g.module_path = [] →
      (∀ u ∈ pre, ∀ g1 cs1, u ≠ .Parent g.raw_name g1 cs1) →
      insert_group (pre ++ .Parent g.raw_name g0 cs0 :: post) g
        = pre ++ .Parent g.raw_name (some g) cs0 :: post)
    ∧ (∀ (tree : List EntryTree) (g : EntryGroup), g.module_path = [] →
      find_group_parent g.raw_name tree = none → insert_group tree g = tree) := by
  have base : ∀ (tree : List EntryTree) (g : EntryGroup), g.module_path = [] →
      insert_group tree g = set_group_here g tree := by
    intro tree g h
    rw [show insert_group tree g = insert_group_go g tree g.module_path from rfl, h]
    rfl
  refine ⟨base, ?_, ?_⟩
  · intro g pre g0 cs0 post h hpre
    rw [base _ g h]
    exact set_group_here_pre g g0 cs0 post pre hpre
  · intro tree g h hfind
    rw [base tree g h]
    exact set_group_here_id g tree hfind

/-- Witness for C10: a root-level group skips a `Leaf` whose display name
equals the group's raw name and binds the first matching `Parent`; a
group matching no root `Parent` leaves the forest unchanged. -/
theorem C10_insert_group_empty_path_witness :
    insert_group [.Leaf ⟨"b", [], 0⟩, EntryTree.Parent "b" none [.Leaf ⟨"x", ["b"], 1⟩]]
        ⟨"b", "B", [], 9⟩
      = [.Leaf ⟨"b", [], 0⟩,
         EntryTree.Parent "b" (some ⟨"b", "B", [], 9⟩) [.Leaf ⟨"x", ["b"], 1⟩]]
    ∧ insert_group [.Leaf ⟨"b", [], 0⟩] ⟨"b", "B", [], 9⟩ = [.Leaf ⟨"b", [], 0⟩] :=
  ⟨C10_insert_group_empty_path.2.1 ⟨"b", "B", [], 9⟩ [.Leaf ⟨"b", [], 0⟩] none
      [.Leaf ⟨"x", ["b"], 1⟩] [] rfl (by simp),
   C10_insert_group_empty_path.2.2 [.Leaf ⟨"b", [], 0⟩] ⟨"b", "B", [], 9⟩ rfl rfl⟩

theorem cmpLin_eq_iff {α : Type} [LinearOrder α] (a b : α) :
    cmpLin a b = .eq ↔ a = b := by
  unfold cmpLin
  split_ifs with h1 h2
  · simp [h1.ne]
  · simp [h2]
  · simp [h2]

theorem cmpLin_lt_iff {α : Type} [LinearOrder α] (a b : α) :
    cmpLin a b = .lt ↔ a < b := by
  unfold cmpLin
  split_ifs with h1 h2 <;> simp_all

theorem cmpLin_swap {α : Type} [LinearOrder α] (a b : α) :
    cmpLin a b = (cmpLin b a).swap := by
  rcases lt_trichotomy a b with h | rfl | h
  · rw [(cmpLin_lt_iff a b).mpr h]
    rw [show cmpLin b a = .gt from by unfold cmpLin; rw [if_neg (asymm h), if_neg h.ne']]
    rfl
  · rw [(cmpLin_eq_iff a a).mpr rfl]
    rfl
  · rw [show cmpLin a b = .gt from by unfold cmpLin; rw [if_neg (asymm h), if_neg h.ne']]
    rw [(cmpLin_lt_iff b a).mpr h]
    rfl

theorem cmpLin_lt_trans {α : Type} [LinearOrder α] {a b c : α}
    (h1 : cmpLin a b = .lt) (h2 : cmpLin b c = .lt) : cmpLin a c = .lt :=
  (cmpLin_lt_iff a c).mpr (lt_trans ((cmpLin_lt_iff a b).mp h1) ((cmpLin_lt_iff b c).mp h2))

theorem cmpOpt_eq_iff (a b : Option Nat) : cmpOpt a b = .eq ↔ a = b := by
  cases a <;> cases b <;> simp [cmpOpt, cmpLin_eq_iff]

theorem cmpOpt_swap (a b : Option Nat) : cmpOpt a b = (cmpOpt b a).swap := by
  cases a <;> cases b <;> simp only [cmpOpt] <;> first | rfl | exact cmpLin_swap _ _

theorem cmpOpt_lt_trans {a b c : Option Nat}
    (h1 : cmpOpt a b = .lt) (h2 : cmpOpt b c = .lt) : cmpOpt a c = .lt := by
  cases a <;> cases b <;> cases c <;> simp_all [cmpOpt]
  exact cmpLin_lt_trans h1 h2

theorem cmp_one_attr_swap (a b : EntryTree) (attr : SortingAttr) :
    cmp_one_attr a b attr = (cmp_one_attr b a attr).swap := by
  cases attr <;> simp only [cmp_one_attr] <;>
    first | exact cmpLin_swap _ _ | exact cmpOpt_swap _ _

theorem cmp_one_attr_congr {a b : EntryTree} {attr : SortingAttr}
    (h : cmp_one_attr a b attr = .eq) (d : EntryTree) :
    cmp_one_attr a d attr = cmp_one_attr b d attr := by
  cases attr <;> simp only [cmp_one_attr] at h ⊢
  · rw [(cmpLin_eq_iff _ _).mp h]
  · rw [(cmpLin_eq_iff _ _).mp h]
  · rw [(cmpOpt_eq_iff _ _).mp h]

theorem cmp_one_attr_lt_trans {a b d : EntryTree} {attr : SortingAttr}
    (h1 : cmp_one_attr a b attr = .lt) (h2 : cmp_one_attr b d attr = .lt) :
    cmp_one_attr a d attr = .lt := by
  cases attr <;> simp only [cmp_one_attr] at h1 h2 ⊢
  · exact cmpLin_lt_trans h1 h2
  · exact cmpLin_lt_trans h1 h2
  · exact cmpOpt_lt_trans h1 h2

theorem cmp_chain_nil (a b : EntryTree) : cmp_chain a b [] = .eq := rfl

theorem cmp_chain_cons (a b : EntryTree) (attr : SortingAttr) (rest : List SortingAttr) :
    cmp_chain a b (attr :: rest)
      = if cmp_one_attr a b attr ≠ .eq then cmp_one_attr a b attr
        else cmp_chain a b rest := rfl

theorem cmp_chain_swap (a b : EntryTree) :
    ∀ (attrs : List SortingAttr), cmp_chain a b attrs = (cmp_chain b a attrs).swap
  | [] => rfl
  | attr :: rest => by
    rw [cmp_chain_cons, cmp_chain_cons, cmp_one_attr_swap a b attr]
    cases h : cmp_one_attr b a attr <;>
      simp [Ordering.swap, cmp_chain_swap a b rest]

theorem cmp_chain_eq_congr {a b : EntryTree} (d : EntryTree) :
    ∀ (attrs : List SortingAttr), cmp_chain a b attrs = .eq →
      cmp_chain a d attrs = cmp_chain b d attrs
  | [], _ => rfl
  | attr :: rest, h => by
    rw [cmp_chain_cons] at h
    by_cases hc : cmp_one_attr a b attr = .eq
    · rw [if_neg (fun hne => hne hc)] at h
      rw [cmp_chain_cons, cmp_chain_cons, cmp_one_attr_congr hc d]
      by_cases hd : cmp_one_attr b d attr = .eq
      · rw [if_neg (fun hne => hne hd), if_neg (fun hne => hne hd)]
        exact cmp_chain_eq_congr d rest h
      · rw [if_pos hd, if_pos hd]
    · rw [if_pos hc] at h
      exact absurd h hc

theorem cmp_chain_lt_trans {a b d : EntryTree} :
    ∀ (attrs : List SortingAttr), cmp_chain a b attrs = .lt →
      cmp_chain b d attrs = .lt → cmp_chain a d attrs = .lt
  | [], hab, _ => by rw [cmp_chain_nil] at hab; exact Ordering.noConfusion hab
  | attr :: rest, hab, hbd => by
    rw [cmp_chain_cons] at hab hbd ⊢
    cases h1 : cmp_one_attr a b attr with
    | lt =>
      cases h2 : cmp_one_attr b d attr with
      | lt =>
        simp [cmp_one_attr_lt_trans h1 h2]
      | eq =>
        have h3 : cmp_one_attr b a attr = cmp_one_attr d a attr :=
          cmp_one_attr_congr h2 a
        have had : cmp_one_attr a d attr = .lt := by
          rw [cmp_one_attr_swap a d attr, ← h3, ← cmp_one_attr_swap a b attr, h1]
        simp [had]
      | gt =>
        rw [h2] at hbd
        simp at hbd
    | eq =>
      rw [h1] at hab
      simp only [ne_eq, not_true_eq_false, if_false] at hab
      have hcong : cmp_one_attr a d attr = cmp_one_attr b d attr :=
        cmp_one_attr_congr h1 d
      cases h2 : cmp_one_attr b d attr with
      | lt =>
        simp [hcong, h2]
      | eq =>
        rw [h2] at hbd
        simp only [ne_eq, not_true_eq_false, if_false] at hbd
        rw [hcong, h2]
        simp only [ne_eq, not_true_eq_false, if_false]
        exact cmp_chain_lt_trans rest hab hbd
      | gt =>
        rw [h2] at hbd
        simp at hbd
    | gt =>
      rw [h1] at hab
      simp at hab

theorem cmp_by_attr_swap (a b : EntryTree) (attr : SortingAttr) :
    cmp_by_attr a b attr = (cmp_by_attr b a attr).swap :=
  cmp_chain_swap a b attr.with_tie_breakers

theorem cmp_by_attr_eq_congr {a b : EntryTree} {attr : SortingAttr}
    (h : cmp_by_attr a b attr = .eq) (d : EntryTree) :
    cmp_by_attr a d attr = cmp_by_attr b d attr :=
  cmp_chain_eq_congr d attr.with_tie_breakers h

theorem cmp_by_attr_lt_trans {a b d : EntryTree} {attr : SortingAttr}
    (h1 : cmp_by_attr a b attr = .lt) (h2 : cmp_by_attr b d attr = .lt) :
    cmp_by_attr a d attr = .lt :=
  cmp_chain_lt_trans attr.with_tie_breakers h1 h2

theorem sort_cmp_false_eq (attr : SortingAttr) (a b : EntryTree) :
    sort_cmp attr false a b = cmp_by_attr a b attr := rfl

theorem sort_cmp_swap (attr : SortingAttr) (reverse : Bool) (a b : EntryTree) :
    sort_cmp attr reverse a b = (sort_cmp attr reverse b a).swap := by
  cases reverse
  · exact cmp_by_attr_swap a b attr
  · rw [show sort_cmp attr true a b = (cmp_by_attr a b attr).swap from rfl]
    rw [show sort_cmp attr true b a = (cmp_by_attr b a attr).swap from rfl]
    rw [Ordering.swap_swap, cmp_by_attr_swap a b attr, Ordering.swap_swap]

theorem swap_eq_gt_iff {o : Ordering} : o.swap = .gt ↔ o = .lt := by
  cases o <;> simp [Ordering.swap]

theorem le0_trans {attr : SortingAttr} {a b c : EntryTree}
    (h1 : cmp_by_attr a b attr ≠ .gt) (h2 : cmp_by_attr b c attr ≠ .gt) :
    cmp_by_attr a c attr ≠ .gt := by
  cases hab : cmp_by_attr a b attr with
  | gt => exact absurd hab h1
  | eq => rw [cmp_by_attr_eq_congr hab c]; exact h2
  | lt =>
    cases hbc : cmp_by_attr b c attr with
    | gt => exact absurd hbc h2
    | lt => rw [cmp_by_attr_lt_trans hab hbc]; simp
    | eq =>
      have hcb : cmp_by_attr c b attr = .eq := by
        rw [cmp_by_attr_swap c b attr, hbc]; rfl
      have h3 : cmp_by_attr c a attr = cmp_by_attr b a attr :=
        cmp_by_attr_eq_congr hcb a
      have h4 : cmp_by_attr a c attr = cmp_by_attr a b attr := by
        rw [cmp_by_attr_swap a c attr, h3, ← cmp_by_attr_swap a b attr]
      rw [h4, hab]
      simp

theorem sort_le_true_iff (attr : SortingAttr) (reverse : Bool) (a b : EntryTree) :
    sort_le attr reverse a b = true ↔ sort_cmp attr reverse a b ≠ .gt := by
  simp [sort_le]

theorem sort_le_total (attr : SortingAttr) (reverse : Bool) (a b : EntryTree) :
    (sort_le attr reverse a b || sort_le attr reverse b a) = true := by
  by_cases h : sort_le attr reverse a b = true
  · simp [h]
  · simp only [Bool.or_eq_true]
    refine Or.inr ?_
    rw [sort_le_true_iff] at h ⊢
    simp only [not_not] at h
    rw [sort_cmp_swap attr reverse a b] at h
    intro hc
    rw [hc] at h
    exact Ordering.noConfusion (swap_eq_gt_iff.mp h)

theorem sort_le_trans (attr : SortingAttr) (reverse : Bool) (a b c : EntryTree)
    (h1 : sort_le attr reverse a b = true) (h2 : sort_le attr reverse b c = true) :
    sort_le attr reverse a c = true := by
  rw [sort_le_true_iff] at h1 h2 ⊢
  cases reverse
  · exact le0_trans h1 h2
  · rw [show sort_cmp attr true a b = (cmp_by_attr a b attr).swap from rfl,
      cmp_by_attr_swap a b attr, Ordering.swap_swap] at h1
    rw [show sort_cmp attr true b c = (cmp_by_attr b c attr).swap from rfl,
      cmp_by_attr_swap b c attr, Ordering.swap_swap] at h2
    rw [show sort_cmp attr true a c = (cmp_by_attr a c attr).swap from rfl,
      cmp_by_attr_swap a c attr, Ordering.swap_swap]
    exact le0_trans h2 h1

theorem locations_cons (t : EntryTree) (ts : List EntryTree) :
    locations (t :: ts)
      = (match location t with
         | some l => l :: locations ts
         | none => locations ts) := rfl

theorem locations_perm {l l' : List EntryTree} (h : l.Perm l') :
    (locations l).Perm (locations l') := by
  induction h with
  | nil => exact List.Perm.refl _
  | cons x _ ih =>
    rw [locations_cons, locations_cons]
    cases hx : location x
    · exact ih
    · exact ih.cons _
  | swap x y l =>
    rw [locations_cons, locations_cons, locations_cons, locations_cons]
    cases hx : location x <;> cases hy : location y
    · exact List.Perm.refl _
    · exact List.Perm.refl _
    · exact List.Perm.refl _
    · exact List.Perm.swap _ _ _
  | trans _ _ ih1 ih2 => exact ih1.trans ih2

theorem min_opt_cons (x : Nat) (l : List Nat) :
    min_opt (x :: l)
      = (match min_opt l with
         | none => some x
         | some y => some (min x y)) := rfl

theorem min_opt_perm {l l' : List Nat} (h : l.Perm l') : min_opt l = min_opt l' := by
  induction h with
  | nil => rfl
  | cons x _ ih => rw [min_opt_cons, min_opt_cons, ih]
  | swap x y l =>
    rw [min_opt_cons, min_opt_cons, min_opt_cons, min_opt_cons]
    cases m : min_opt l
    · simp [Nat.min_comm]
    · simp [← Nat.min_assoc]
      rw [Nat.min_comm y x]
  | trans _ _ ih1 ih2 => rw [ih1, ih2]

theorem perm_sizeOf_eq {l l' : List EntryTree} (h : l.Perm l') :
    sizeOf l = sizeOf l' := by
  induction h with
  | nil => rfl
  | cons x _ ih => simp only [List.cons.sizeOf_spec]; omega
  | swap x y l => simp only [List.cons.sizeOf_spec]; omega
  | trans _ _ ih1 ih2 => omega

mutual
theorem sort_by_attr_locations (tree : List EntryTree) (attr : SortingAttr)
    (reverse : Bool) :
    (locations (sort_by_attr tree attr reverse)).Perm (locations tree) := by
  simp only [sort_by_attr]
  rw [sort_children_each_locations (tree.mergeSort (sort_le attr reverse)) attr reverse]
  exact locations_perm (List.mergeSort_perm tree _)
termination_by (sizeOf tree, 1)
decreasing_by
  rw [perm_sizeOf_eq (List.mergeSort_perm tree (sort_le attr reverse))]
  exact Prod.Lex.right _ (by omega)

theorem sort_children_each_locations (tree : List EntryTree) (attr : SortingAttr)
    (reverse : Bool) :
    locations (sort_children_each tree attr reverse) = locations tree := by
  match tree with
  | [] => simp only [sort_children_each]
  | .Leaf e :: ts =>
    simp only [sort_children_each]
    rw [locations_cons, locations_cons,
      sort_children_each_locations ts attr reverse]
  | .Parent rn g cs :: ts =>
    simp only [sort_children_each]
    have hloc : location (.Parent rn g (sort_by_attr cs attr reverse))
        = location (.Parent rn g cs) := by
      cases g with
      | some g0 => rfl
      | none =>
        rw [show location (.Parent rn none (sort_by_attr cs attr reverse))
            = min_opt (locations (sort_by_attr cs attr reverse)) from rfl]
        rw [show location (.Parent rn none cs) = min_opt (locations cs) from rfl]
        exact min_opt_perm (sort_by_attr_locations cs attr reverse)
    rw [locations_cons, locations_cons, hloc,
      sort_children_each_locations ts attr reverse]
termination_by (sizeOf tree, 0)
decreasing_by
  all_goals apply Prod.Lex.left
  all_goals simp only [List.cons.sizeOf_spec, EntryTree.Parent.sizeOf_spec,
    EntryTree.Leaf.sizeOf_spec]
  all_goals omega
end

theorem sort_children_each_obs (attr : SortingAttr) (reverse : Bool) :
    ∀ (tree : List EntryTree),
      List.Forall₂ obs_eq tree (sort_children_each tree attr reverse)
  | [] => by
    simp only [sort_children_each]
    exact List.Forall₂.nil
  | .Leaf e :: ts => by
    simp only [sort_children_each]
    exact List.Forall₂.cons ⟨rfl, rfl, rfl⟩ (sort_children_each_obs attr reverse ts)
  | .Parent rn g cs :: ts => by
    simp only [sort_children_each]
    cases g with
    | some g0 =>
      exact List.Forall₂.cons ⟨rfl, rfl, rfl⟩ (sort_children_each_obs attr reverse ts)
    | none =>
      refine List.Forall₂.cons ⟨rfl, rfl, ?_⟩ (sort_children_each_obs attr reverse ts)
      rw [show location (.Parent rn none (sort_by_attr cs attr reverse))
          = min_opt (locations (sort_by_attr cs attr reverse)) from rfl]
      rw [show location (.Parent rn none cs) = min_opt (locations cs) from rfl]
      exact (min_opt_perm (sort_by_attr_locations cs attr reverse)).symm

theorem cmp_one_attr_obs {a a' b b' : EntryTree} (ha : obs_eq a a') (hb : obs_eq b b')
    (attr : SortingAttr) : cmp_one_attr a b attr = cmp_one_attr a' b' attr := by
  obtain ⟨hk, hd, hl⟩ := ha
  obtain ⟨hk', hd', hl'⟩ := hb
  cases attr <;> simp only [cmp_one_attr, hk, hd, hl, hk', hd', hl']

theorem cmp_chain_obs {a a' b b' : EntryTree} (ha : obs_eq a a') (hb : obs_eq b b') :
    ∀ (attrs : List SortingAttr), cmp_chain a b attrs = cmp_chain a' b' attrs
  | [] => rfl
  | attr :: rest => by
    rw [cmp_chain_cons, cmp_chain_cons, cmp_one_attr_obs ha hb attr,
      cmp_chain_obs ha hb rest]

theorem sort_le_obs {a a' b b' : EntryTree} (ha : obs_eq a a') (hb : obs_eq b b')
    (attr : SortingAttr) (reverse : Bool) :
    sort_le attr reverse a b = sort_le attr reverse a' b' := by
  have h : cmp_by_attr a b attr = cmp_by_attr a' b' attr :=
    cmp_chain_obs ha hb attr.with_tie_breakers
  simp [sort_le, sort_cmp, h]

theorem forall_le_transfer (attr : SortingAttr) (reverse : Bool)
    {a a' : EntryTree} (ha : obs_eq a a') :
    ∀ {l l' : List EntryTree}, List.Forall₂ obs_eq l l' →
      (∀ y ∈ l, sort_le attr reverse a y = true) →
      ∀ y' ∈ l', sort_le attr reverse a' y' = true := by
  intro l l' hf
  induction hf with
  | nil =>
    intro _ y' hy'
    exact absurd hy' (List.not_mem_nil y')
  | cons hxy htail ih =>
    intro hall y' hy'
    rcases List.mem_cons.mp hy' with rfl | hy'
    · rw [← sort_le_obs ha hxy attr reverse]
      exact hall _ (List.mem_cons_self _ _)
    · exact ih (fun y hy => hall y (List.mem_cons_of_mem _ hy)) y' hy'

theorem pairwise_le_transfer (attr : SortingAttr) (reverse : Bool) :
    ∀ {l l' : List EntryTree}, List.Forall₂ obs_eq l l' →
      l.Pairwise (fun x y => sort_le attr reverse x y = true) →
      l'.Pairwise (fun x y => sort_le attr reverse x y = true) := by
  intro l l' hf
  induction hf with
  | nil =>
    intro _
    exact List.Pairwise.nil
  | cons hxy htail ih =>
    intro hp
    rcases List.pairwise_cons.mp hp with ⟨hhead, htl⟩
    exact List.Pairwise.cons
      (forall_le_transfer attr reverse hxy htail hhead) (ih htl)

mutual
theorem sort_by_attr_idem_aux (tree : List EntryTree) (attr : SortingAttr)
    (reverse : Bool) :
    sort_by_attr (sort_by_attr tree attr reverse) attr reverse
      = sort_by_attr tree attr reverse := by
  have h1 : (tree.mergeSort (sort_le attr reverse)).Pairwise
      (fun a b => sort_le attr reverse a b = true) :=
    List.sorted_mergeSort (fun a b c => sort_le_trans attr reverse a b c)
      (fun a b => sort_le_total attr reverse a b) tree
  have h2 := sort_children_each_obs attr reverse (tree.mergeSort (sort_le attr reverse))
  have h3 := pairwise_le_transfer attr reverse h2 h1
  simp only [sort_by_attr]
  rw [List.mergeSort_of_sorted h3]
  exact sort_children_each_idem_aux (tree.mergeSort (sort_le attr reverse)) attr reverse
termination_by (sizeOf tree, 1)
decreasing_by
  rw [perm_sizeOf_eq (List.mergeSort_perm tree (sort_le attr reverse))]
  exact Prod.Lex.right _ (by omega)

theorem sort_children_each_idem_aux (tree : List EntryTree) (attr : SortingAttr)
    (reverse : Bool) :
    sort_children_each (sort_children_each tree attr reverse) attr reverse
      = sort_children_each tree attr reverse := by
  match tree with
  | [] => simp only [sort_children_each]
  | .Leaf e :: ts =>
    simp only [sort_children_each]
    rw [sort_children_each_idem_aux ts attr reverse]
  | .Parent rn g cs :: ts =>
    simp only [sort_children_each]
    rw [sort_by_attr_idem_aux cs attr reverse,
      sort_children_each_idem_aux ts attr reverse]
termination_by (sizeOf tree, 0)
decreasing_by
  all_goals apply Prod.Lex.left
  all_goals simp only [List.cons.sizeOf_spec, EntryTree.Parent.sizeOf_spec,
    EntryTree.Leaf.sizeOf_spec]
  all_goals omega
end

/-- Claim C7: sorting is idempotent: for every forest, attribute, and
reverse flag, applying `sort_by_attr` twice produces the identical node
order at every level as applying it once. -/
theorem C7_sort_idempotent :
    ∀ (tree : List EntryTree) (attr : SortingAttr) (reverse : Bool),
      sort_by_attr (sort_by_attr tree attr reverse) attr reverse
        = sort_by_attr tree attr reverse :=
  fun tree attr reverse => sort_by_attr_idem_aux tree attr reverse

theorem kind_le_of_sort_le {x y : EntryTree}
    (h : sort_le .Kind false x y = true) : x.kind ≤ y.kind := by
  rw [sort_le_true_iff, sort_cmp_false_eq] at h
  rw [show cmp_by_attr x y .Kind = cmp_chain x y [.Kind, .Name, .Location] from rfl,
    cmp_chain_cons] at h
  cases hk : cmp_one_attr x y .Kind with
  | lt =>
    simp only [cmp_one_attr] at hk
    exact le_of_lt ((cmpLin_lt_iff _ _).mp hk)
  | eq =>
    simp only [cmp_one_attr] at hk
    exact le_of_eq ((cmpLin_eq_iff _ _).mp hk)
  | gt =>
    rw [hk] at h
    simp at h

/-- Claim C8: the sort comparison evaluates the primary attribute then the
remaining attributes as tie-breakers, each applied only when all preceding
comparisons were equal; with `reverse` set the entire chained comparison
is reversed (not each key individually); and sorting by `Kind` with
`reverse` unset places sibling leaves (ordinal `0`) before sibling parents
(ordinal `1`) regardless of names. -/
theorem C8_sort_comparator :
    (∀ (attr : SortingAttr) (a b : EntryTree),
      sort_cmp attr true a b = (sort_cmp attr false a b).swap)
    ∧ (∀ (attr : SortingAttr) (a b : EntryTree), ∃ t1 t2,
      attr.with_tie_breakers = [attr, t1, t2]
      ∧ cmp_by_attr a b attr
        = (if cmp_one_attr a b attr ≠ .eq then cmp_one_attr a b attr
           else if cmp_one_attr a b t1 ≠ .eq then cmp_one_attr a b t1
           else cmp_one_attr a b t2))
    ∧ (∀ (e : Entry) (rn : String) (g : Option EntryGroup) (cs : List EntryTree),
      sort_cmp .Kind false (.Leaf e) (.Parent rn g cs) = .lt)
    ∧ (∀ (tree : List EntryTree),
      (sort_by_attr tree .Kind false).Pairwise (fun x y => x.kind ≤ y.kind)) := by
  refine ⟨fun _ _ _ => rfl, ?_, fun _ _ _ _ => rfl, ?_⟩
  · intro attr a b
    cases attr
    all_goals refine ⟨_, _, rfl, ?_⟩
    all_goals rw [show cmp_by_attr a b _ = cmp_chain a b _ from rfl]
    all_goals simp only [SortingAttr.with_tie_breakers]
    all_goals rw [cmp_chain_cons, cmp_chain_cons, cmp_chain_cons, cmp_chain_nil]
    all_goals split_ifs with h0 h1 h2
    all_goals first | rfl | exact (not_ne_iff.mp h2).symm
  · intro tree
    have h1 : (tree.mergeSort (sort_le .Kind false)).Pairwise
        (fun a b => sort_le .Kind false a b = true) :=
      List.sorted_mergeSort (fun a b c => sort_le_trans .Kind false a b c)
        (fun a b => sort_le_total .Kind false a b) tree
    have h2 := sort_children_each_obs .Kind false (tree.mergeSort (sort_le .Kind false))
    have h3 := pairwise_le_transfer .Kind false h2 h1
    simp only [sort_by_attr]
    exact h3.imp (fun hxy => kind_le_of_sort_le hxy)

theorem count_in_nil (e : Entry) (path : List String) : count_in e path [] = 0 := rfl

theorem count_in_cons (e : Entry) (path : List String) (t : EntryTree)
    (ts : List EntryTree) :
    count_in e path (t :: ts) = count_node e path t + count_in e path ts := rfl

theorem count_node_leaf_nil (e e0 : Entry) :
    count_node e [] (.Leaf e0) = if e0 = e then 1 else 0 := rfl

theorem count_node_leaf_cons (e e0 : Entry) (c : String) (rest : List String) :
    count_node e (c :: rest) (.Leaf e0) = 0 := rfl

theorem count_node_parent_nil (e : Entry) (rn : String) (g : Option EntryGroup)
    (cs : List EntryTree) : count_node e [] (.Parent rn g cs) = 0 := rfl

theorem count_node_parent_cons (e : Entry) (c : String) (rest : List String)
    (rn : String) (g : Option EntryGroup) (cs : List EntryTree) :
    count_node e (c :: rest) (.Parent rn g cs)
      = if rn = c then count_in e rest cs else 0 := rfl

theorem count_in_append (e : Entry) (path : List String) :
    ∀ (l1 l2 : List EntryTree),
      count_in e path (l1 ++ l2) = count_in e path l1 + count_in e path l2
  | [], l2 => by rw [List.nil_append, count_in_nil]; omega
  | t :: ts, l2 => by
    rw [List.cons_append, count_in_cons, count_in_cons, count_in_append e path ts l2]
    omega

theorem total_in_nil (e : Entry) : total_in e [] = 0 := rfl

theorem total_in_cons (e : Entry) (t : EntryTree) (ts : List EntryTree) :
    total_in e (t :: ts) = total_node e t + total_in e ts := rfl

theorem total_node_leaf (e e0 : Entry) :
    total_node e (.Leaf e0) = if e0 = e then 1 else 0 := rfl

theorem total_node_parent (e : Entry) (rn : String) (g : Option EntryGroup)
    (cs : List EntryTree) : total_node e (.Parent rn g cs) = total_in e cs := rfl

theorem total_in_append (e : Entry) :
    ∀ (l1 l2 : List EntryTree), total_in e (l1 ++ l2) = total_in e l1 + total_in e l2
  | [], l2 => by rw [List.nil_append, total_in_nil]; omega
  | t :: ts, l2 => by
    rw [List.cons_append, total_in_cons, total_in_cons, total_in_append e ts l2]
    omega

theorem count_node_from_path (e e' : Entry) :
    ∀ (rem : List String) (m : String) (path : List String),
      count_node e' path (from_path e m rem)
        = if e = e' ∧ path = m :: rem then 1 else 0
  | [], m, path => by
    rw [show from_path e m [] = .Parent m none [.Leaf e] from rfl]
    cases path with
    | nil => rw [count_node_parent_nil]; simp
    | cons c r =>
      rw [count_node_parent_cons]
      by_cases hc : m = c
      · rw [if_pos hc, count_in_cons, count_in_nil]
        cases r with
        | nil =>
          rw [count_node_leaf_nil]
          by_cases he : e = e'
          · rw [if_pos he, if_pos ⟨he, by rw [hc]⟩]
          · rw [if_neg he, if_neg (fun hx => he hx.1)]
        | cons c2 r2 =>
          rw [count_node_leaf_cons]
          have : ¬(e = e' ∧ c :: c2 :: r2 = [m]) := by
            rintro ⟨_, hx⟩
            injection hx with _ hx2
            exact List.noConfusion hx2
          rw [if_neg this]
      · rw [if_neg hc]
        have : ¬(e = e' ∧ c :: r = [m]) := by
          rintro ⟨_, hx⟩
          injection hx with hx1 _
          exact hc hx1.symm
        rw [if_neg this]
  | next :: rest, m, path => by
    rw [show from_path e m (next :: rest)
        = .Parent m none [from_path e next rest] from rfl]
    cases path with
    | nil => rw [count_node_parent_nil]; simp
    | cons c r =>
      rw [count_node_parent_cons]
      by_cases hc : m = c
      · rw [if_pos hc, count_in_cons, count_in_nil,
          count_node_from_path e e' rest next r]
        by_cases h4 : e = e' ∧ r = next :: rest
        · rw [if_pos h4, if_pos ⟨h4.1, by rw [h4.2, hc]⟩]
        · rw [if_neg h4]
          have : ¬(e = e' ∧ c :: r = m :: next :: rest) := by
            rintro ⟨hx1, hx2⟩
            injection hx2 with _ hx3
            exact h4 ⟨hx1, hx3⟩
          rw [if_neg this]
      · rw [if_neg hc]
        have : ¬(e = e' ∧ c :: r = m :: next :: rest) := by
          rintro ⟨_, hx⟩
          injection hx with hx1 _
          exact hc hx1.symm
        rw [if_neg this]

theorem insert_entry_count (e e' : Entry) :
    ∀ (rem : List String) (tree : List EntryTree) (path : List String),
      count_in e' path (insert_entry e tree rem)
        = count_in e' path tree + (if e = e' ∧ path = rem then 1 else 0)
  | [], tree, path => by
    rw [show insert_entry e tree [] = tree ++ [.Leaf e] from rfl, count_in_append,
      count_in_cons, count_in_nil]
    cases path with
    | nil =>
      rw [count_node_leaf_nil]
      by_cases he : e = e'
      · rw [if_pos he, if_pos ⟨he, rfl⟩]
      · rw [if_neg he, if_neg (fun hx => he hx.1)]
    | cons c r =>
      rw [count_node_leaf_cons]
      have : ¬(e = e' ∧ c :: r = []) := by rintro ⟨_, hx⟩; exact List.noConfusion hx
      rw [if_neg this]
  | m :: rest, tree, path => by
    rw [show insert_entry e tree (m :: rest)
        = (match updateFirstParent m (fun cs => insert_entry e cs rest) tree with
           | some tree' => tree'
           | none => tree ++ [from_path e m rest]) from rfl]
    cases hu : updateFirstParent m (fun cs => insert_entry e cs rest) tree with
    | none =>
      rw [count_in_append, count_in_cons, count_in_nil,
        count_node_from_path e e' rest m path]
      omega
    | some tree' =>
      obtain ⟨pre, g, cs, post, h1, _, h3⟩ :=
        updateFirstParent_some_decomp m _ tree tree' hu
      rw [h1, h3, count_in_append, count_in_append, count_in_cons, count_in_cons]
      have hnode : count_node e' path (.Parent m g (insert_entry e cs rest))
          = count_node e' path (.Parent m g cs)
            + (if e = e' ∧ path = m :: rest then 1 else 0) := by
        cases path with
        | nil =>
          rw [count_node_parent_nil, count_node_parent_nil]
          simp
        | cons c r =>
          rw [count_node_parent_cons, count_node_parent_cons]
          by_cases hc : m = c
          · rw [if_pos hc, if_pos hc, insert_entry_count e e' rest cs r]
            by_cases h4 : e = e' ∧ r = rest
            · rw [if_pos h4, if_pos ⟨h4.1, by rw [h4.2, hc]⟩]
            · rw [if_neg h4]
              have : ¬(e = e' ∧ c :: r = m :: rest) := by
                rintro ⟨hx1, hx2⟩
                injection hx2 with _ hx3
                exact h4 ⟨hx1, hx3⟩
              rw [if_neg this]
          · rw [if_neg hc, if_neg hc]
            have : ¬(e = e' ∧ c :: r = m :: rest) := by
              rintro ⟨_, hx⟩
              injection hx with hx1 _
              exact hc hx1.symm
            rw [if_neg this]
      rw [hnode]
      omega

theorem total_node_from_path (e e' : Entry) :
    ∀ (rem : List String) (m : String),
      total_node e' (from_path e m rem) = if e = e' then 1 else 0
  | [], m => by
    rw [show from_path e m [] = .Parent m none [.Leaf e] from rfl,
      total_node_parent, total_in_cons, total_in_nil, total_node_leaf]
    rw [Nat.add_zero]
  | next :: rest, m => by
    rw [show from_path e m (next :: rest)
        = .Parent m none [from_path e next rest] from rfl,
      total_node_parent, total_in_cons, total_in_nil,
      total_node_from_path e e' rest next, Nat.add_zero]

theorem insert_entry_total (e e' : Entry) :
    ∀ (rem : List String) (tree : List EntryTree),
      total_in e' (insert_entry e tree rem)
        = total_in e' tree + (if e = e' then 1 else 0)
  | [], tree => by
    rw [show insert_entry e tree [] = tree ++ [.Leaf e] from rfl, total_in_append,
      total_in_cons, total_in_nil, total_node_leaf, Nat.add_zero]
  | m :: rest, tree => by
    rw [show insert_entry e tree (m :: rest)
        = (match updateFirstParent m (fun cs => insert_entry e cs rest) tree with
           | some tree' => tree'
           | none => tree ++ [from_path e m rest]) from rfl]
    cases hu : updateFirstParent m (fun cs => insert_entry e cs rest) tree with
    | none =>
      rw [total_in_append, total_in_cons, total_in_nil,
        total_node_from_path e e' rest m]
      omega
    | some tree' =>
      obtain ⟨pre, g, cs, post, h1, _, h3⟩ :=
        updateFirstParent_some_decomp m _ tree tree' hu
      rw [h1, h3, total_in_append, total_in_append, total_in_cons, total_in_cons,
        total_node_parent, total_node_parent, insert_entry_total e e' rest cs]
      omega

theorem from_entries_count_aux (e' : Entry) (path : List String) :
    ∀ (es : List Entry) (tree : List EntryTree),
      count_in e' path
        (es.foldl (fun acc x => insert_entry x acc x.module_path) tree)
        = count_in e' path tree
          + es.countP (fun x => decide (x = e' ∧ path = x.module_path))
  | [], tree => by rw [List.foldl_nil, List.countP_nil]; omega
  | x :: es, tree => by
    rw [List.foldl_cons, from_entries_count_aux e' path es _,
      insert_entry_count x e' x.module_path tree path, List.countP_cons]
    simp only [decide_eq_true_eq]
    omega

theorem from_entries_total_aux (e' : Entry) :
    ∀ (es : List Entry) (tree : List EntryTree),
      total_in e' (es.foldl (fun acc x => insert_entry x acc x.module_path) tree)
        = total_in e' tree + es.countP (fun x => decide (x = e'))
  | [], tree => by rw [List.foldl_nil, List.countP_nil]; omega
  | x :: es, tree => by
    rw [List.foldl_cons, from_entries_total_aux e' es _,
      insert_entry_total x e' x.module_path tree, List.countP_cons]
    simp only [decide_eq_true_eq]
    omega

/-- Claim C1: for every input sequence, each `Entry` occurs as a `Leaf` at
the chain of `Parent` raw names spelling its path components exactly as
often as it occurs in the input, and it occurs nowhere else in the forest;
an entry with an empty path is counted directly at the root level; for a
duplicate-free input, each member occurs exactly once. -/
theorem C1_from_entries_leaves :
    (∀ (entries : List Entry) (e : Entry),
      count_in e e.module_path (from_entries entries) = entries.count e
      ∧ total_in e (from_entries entries) = entries.count e)
    ∧ (∀ (entries : List Entry) (e : Entry), e.module_path = [] →
      count_in e [] (from_entries entries) = entries.count e)
    ∧ (∀ (entries : List Entry) (e : Entry), entries.Nodup → e ∈ entries →
      count_in e e.module_path (from_entries entries) = 1
      ∧ total_in e (from_entries entries) = 1) := by
  have hmain : ∀ (entries : List Entry) (e : Entry),
      count_in e e.module_path (from_entries entries) = entries.count e
      ∧ total_in e (from_entries entries) = entries.count e := by
    intro es e
    constructor
    · rw [show from_entries es
          = es.foldl (fun acc x => insert_entry x acc x.module_path) [] from rfl,
        from_entries_count_aux e e.module_path es [], count_in_nil,
        List.count_eq_countP]
      have hcong : List.countP
            (fun x => decide (x = e ∧ e.module_path = x.module_path)) es
          = List.countP (fun x => x == e) es := by
        refine List.countP_congr ?_
        intro x _
        simp only [decide_eq_true_eq, beq_iff_eq]
        exact ⟨fun h => h.1, fun h => ⟨h, by rw [h]⟩⟩
      rw [hcong]
      omega
    · rw [show from_entries es
          = es.foldl (fun acc x => insert_entry x acc x.module_path) [] from rfl,
        from_entries_total_aux e es [], total_in_nil,
        List.count_eq_countP]
      have hcong : List.countP (fun x => decide (x = e)) es
          = List.countP (fun x => x == e) es := by
        refine List.countP_congr ?_
        intro x _
        simp only [decide_eq_true_eq, beq_iff_eq]
      rw [hcong]
      omega
  refine ⟨hmain, ?_, ?_⟩
  · intro es e h
    rw [← h]
    exact (hmain es e).1
  · intro es e hnd hm
    have hc := List.count_eq_one_of_mem hnd hm
    exact ⟨by rw [(hmain es e).1, hc], by rw [(hmain es e).2, hc]⟩

/-- Witness for C1 on a concrete entry list: a root entry with an empty
path is counted at the root level, and each member of a duplicate-free
input occurs exactly once at its own path and once in total. -/
theorem C1_from_entries_leaves_witness :
    count_in ⟨"r", [], 1⟩ [] (from_entries [⟨"a", ["m"], 0⟩, ⟨"r", [], 1⟩])
      = ([⟨"a", ["m"], 0⟩, ⟨"r", [], 1⟩] : List Entry).count ⟨"r", [], 1⟩
    ∧ count_in ⟨"a", ["m"], 0⟩ (Entry.module_path ⟨"a", ["m"], 0⟩)
        (from_entries [⟨"a", ["m"], 0⟩, ⟨"r", [], 1⟩]) = 1
    ∧ total_in ⟨"a", ["m"], 0⟩ (from_entries [⟨"a", ["m"], 0⟩, ⟨"r", [], 1⟩]) = 1 :=
  ⟨C1_from_entries_leaves.2.1 [⟨"a", ["m"], 0⟩, ⟨"r", [], 1⟩] ⟨"r", [], 1⟩ rfl,
   (C1_from_entries_leaves.2.2 [⟨"a", ["m"], 0⟩, ⟨"r", [], 1⟩] ⟨"a", ["m"], 0⟩
      (by decide) (by decide)).1,
   (C1_from_entries_leaves.2.2 [⟨"a", ["m"], 0⟩, ⟨"r", [], 1⟩] ⟨"a", ["m"], 0⟩
      (by decide) (by decide)).2⟩

end EntryTree
